import Mathlib

/-!
Verification of `apps/chrome-extension/src/common/utils.ts`.

The TypeScript source is embedded shallowly:

* JS strings are Lean `String` (lists of `Char`); index arithmetic on
  strings is done on `String.data`.
* JS numbers appearing in the width-normalization path are modelled as
  rationals (`ℚ`); `Number(...)` string parsing and `String(...)`
  rendering are embedded as executable functions on decimal numerals.
* The `Set<string>` of used names is modelled as a `List String` used
  only through membership; the `Map<string, number>` of per-base-name
  counters is modelled as a total function `String → Nat` with default
  value `0` (matching `map.get(k) ?? 0`).
* The two `while` loops of `UniqueFileName` are embedded with explicit
  fuel; the fuel chosen by the top-level wrappers is proved sufficient,
  so the `Option` result is in fact always `some`.
* `toHast` / `toHtml` (the `mdast-util-to-hast` / `hast-util-to-html`
  library boundary) are abstract parameters: every theorem about the
  rewriters holds for an arbitrary serializer.
* In-place mutation of the mdast tree is purified: each rewriter is a
  function from the old tree (or the old child sequence) to the new one,
  and JS reference identity in `findIndex(child => child === inner)` is
  modelled by structural equality on nodes.
-/

set_option maxHeartbeats 1000000

namespace CDC

/-! ### Decimal numerals, modelling JS `Number.prototype.toFixed()` and
integer `String(...)` rendering. -/
/-- The decimal digit character for `n < 10`, i.e. `'0'` shifted by `n`. -/
def digitChar (n : Nat) : Char := Char.ofNat (48 + n)

/-- Fuel-driven decimal expansion of a natural number, most significant
digit first. `natToDecimalAux (n+1) n` always has enough fuel. -/
def natToDecimalAux : Nat → Nat → List Char
  | 0, _ => []
  | f + 1, n =>
    if n < 10 then [digitChar n]
    else natToDecimalAux f (n / 10) ++ [digitChar (n % 10)]

/-- Decimal numeral of a natural number, as produced by JS
`n.toFixed()` / `String(n)` for a nonnegative integer `n`. -/
def natToDecimal (n : Nat) : List Char := natToDecimalAux (n + 1) n

/-- Value of a list of decimal digit characters (left fold, base 10). -/
def decVal (l : List Char) : Nat := l.foldl (fun a c => a * 10 + (c.toNat - 48)) 0

/-! ### `UniqueFileName` (utils.ts lines 49–96) -/
/-- Model of `originFileName.lastIndexOf('.')`, as an optional character index:
`some i` when the last occurrence of `c` is at index `i`, `none` when
absent (JS returns `-1`). -/
def lastIndexOfAux (c : Char) : List Char → Option Nat
  | [] => none
  | x :: xs =>
    match lastIndexOfAux c xs with
    | some i => some (i + 1)
    | none => if x = c then some 0 else none

/-- Index of the last `'.'` of a file name (`lastIndexOf('.')`). -/
def lastDotIdx (s : String) : Option Nat := lastIndexOfAux '.' s.data

/-- The collision candidate built by `UniqueFileName.generate`:
`origin.slice(0, dot) + '-' + id.toFixed() + origin.slice(dot)`, or
`origin + '-' + id.toFixed()` when the name has no dot. -/
def mkCandidate (origin : String) (id : Nat) : String :=
  match lastDotIdx origin with
  | none => String.mk (origin.data ++ '-' :: natToDecimal id)
  | some i =>
      String.mk (origin.data.take i ++ '-' :: natToDecimal id ++ origin.data.drop i)

/-- Allocator state: the used-name set and the per-base-name counter map
(`usedNames : Set<string>`, `fileNameToPreId : Map<string, number>`). -/
structure UFState where
  used : List String
  pre : String → Nat

/-- A fresh allocator (`new UniqueFileName()`). -/
def UFState.initial : UFState := ⟨[], fun _ => 0⟩

/-- The `while` loop of `UniqueFileName.generate`, with explicit fuel.
Each iteration reads the per-base counter, bumps and stores it, and
builds the next candidate; the loop exits as soon as the current
candidate is not in the used set, recording it. -/
def genLoop (origin : String) : Nat → String → UFState → Option (String × UFState)
  | 0, current, st =>
    if current ∈ st.used then none
    else some (current, ⟨current :: st.used, st.pre⟩)
  | f + 1, current, st =>
    if current ∈ st.used then
      genLoop origin f (mkCandidate origin (st.pre origin + 1))
        ⟨st.used, Function.update st.pre origin (st.pre origin + 1)⟩
    else some (current, ⟨current :: st.used, st.pre⟩)

/-- Method `UniqueFileName.generate`. Fuel `used.length + 1` is sufficient
(`generate_isSome` below). -/
def generate (st : UFState) (origin : String) : Option (String × UFState) :=
  genLoop origin (st.used.length + 1) origin st

/-- Extension of a file name: content from the last `.` onward, empty
when there is no dot. -/
def extOf (origin : String) : String :=
  match lastDotIdx origin with
  | none => ""
  | some i => String.mk (origin.data.drop i)

/-- The collision candidate of `generateWithUUID`:
`` `${uuid}-${counter}${extension}` ``. -/
def uuidCand (uuid ext : String) (k : Nat) : String :=
  String.mk (uuid.data ++ '-' :: natToDecimal k ++ ext.data)

/-- The `while` loop of `UniqueFileName.generateWithUUID`, with explicit
fuel; the used set is not modified inside the loop. -/
def uuidLoop (uuid ext : String) (used : List String) :
    Nat → String → Nat → Option String
  | 0, current, _ => if current ∈ used then none else some current
  | f + 1, current, counter =>
    if current ∈ used then
      uuidLoop uuid ext used f (uuidCand uuid ext counter) (counter + 1)
    else some current

/-- Method `UniqueFileName.generateWithUUID`, with the random `uuidv4()` token
passed in as a parameter (its generation is an external library call).
Records the final name; never touches the per-base counter map. -/
def generateWithUUID (uuid : String) (st : UFState) (origin : String) :
    Option (String × UFState) :=
  match uuidLoop uuid (extOf origin) st.used (st.used.length + 1)
      (String.mk (uuid.data ++ (extOf origin).data)) 1 with
  | none => none
  | some n => some (n, ⟨n :: st.used, st.pre⟩)

/-! ### Interleaved call sequences on one allocator instance -/
/-- One method call on a `UniqueFileName` instance.  The random token of
`generateWithUUID` is part of the command, since `uuidv4()` is an
external library call. -/
inductive AllocCmd where
  | gen (name : String)
  | genU (uuid : String) (name : String)

/-- Dispatch one call on the allocator state. -/
def stepAlloc (st : UFState) : AllocCmd → Option (String × UFState)
  | .gen o => generate st o
  | .genU u o => generateWithUUID u st o

/-- Run a sequence of calls, collecting the returned names. -/
def runAlloc : UFState → List AllocCmd → Option (List String × UFState)
  | st, [] => some ([], st)
  | st, c :: cs =>
    match stepAlloc st c with
    | none => none
    | some (n, st') =>
      match runAlloc st' cs with
      | none => none
      | some (ns, stf) => some (n :: ns, stf)

/-- The names returned by a sequence of calls on a fresh allocator. -/
def runNames (cs : List AllocCmd) : Option (List String) :=
  (runAlloc UFState.initial cs).map Prod.fst

/-! ### JS number conversions for `normalizeWidthValue`
(utils.ts lines 159–164).  JS numbers are modelled as rationals; the
strings reaching `Number(value)` here contain no letters (filtered by
the `/[a-z]/i` test), so the decimal-literal grammar below covers all
reachable inputs. -/
/-- Unsigned decimal literal: `digits`, `digits.`, `digits.digits` or
`.digits`; anything else is `NaN` (`none`). -/
def parseUnsigned (cs : List Char) : Option ℚ :=
  match cs.dropWhile Char.isDigit with
  | [] =>
    if (cs.takeWhile Char.isDigit).isEmpty then none
    else some (mkRat (decVal (cs.takeWhile Char.isDigit)) 1)
  | '.' :: frac =>
    if frac.all Char.isDigit &&
        !((cs.takeWhile Char.isDigit).isEmpty && frac.isEmpty) then
      some (mkRat (decVal (cs.takeWhile Char.isDigit)) 1 +
        mkRat (decVal frac) (10 ^ frac.length))
    else none
  | _ => none

/-- JS `Number(value)` for a width string: trims whitespace, converts
the empty string to `0`, accepts an optional sign, and otherwise parses
a decimal literal; `none` models a non-finite result (`NaN`). -/
def jsStrToNumber (s : String) : Option ℚ :=
  match ((s.data.dropWhile Char.isWhitespace).reverse.dropWhile
      Char.isWhitespace).reverse with
  | [] => some 0
  | '+' :: rest => parseUnsigned rest
  | '-' :: rest => (parseUnsigned rest).map Neg.neg
  | t => parseUnsigned t

/-- Fractional decimal expansion of `q ∈ [0, 1)`, stopping at the first
exact digit string (JS prints no trailing zeros), with fuel. -/
def fracDigits : Nat → ℚ → List Char
  | 0, _ => []
  | f + 1, q =>
    if q = 0 then []
    else digitChar (q * 10).floor.toNat ::
      fracDigits f (q * 10 - mkRat (q * 10).floor 1)

/-- JS `String(value)` for the (finite-decimal) numbers arising here:
integers print with no decimal point, other values print their exact
decimal expansion with no trailing zeros. -/
def jsNumberToString (q : ℚ) : String :=
  if q.den = 1 then
    if q.num < 0 then String.mk ('-' :: natToDecimal q.num.natAbs)
    else String.mk (natToDecimal q.num.toNat)
  else
    if q < 0 then
      String.mk ('-' :: natToDecimal (-q).floor.toNat ++
        '.' :: fracDigits (-q).den (-q - mkRat (-q).floor 1))
    else
      String.mk (natToDecimal q.floor.toNat ++
        '.' :: fracDigits q.den (q - mkRat q.floor 1))

/-- Function `normalizeWidthValue` (utils.ts lines 159–164): strings already
containing `%` or a letter pass through; unparsable strings pass
through; values `≤ 1` become percentages (`value * 100` + `%`); other
values become pixels (`value` + `px`). -/
def normalizeWidthValue (value : String) : String :=
  if value.data.contains '%' || value.data.any Char.isAlpha then value
  else
    match jsStrToNumber value with
    | none => value
    | some numeric =>
      if numeric ≤ 1 then jsNumberToString (numeric * 100) ++ "%"
      else jsNumberToString numeric ++ "px"

/-! ### The mdast document tree.

A node carries its `type`, the fields of the optional metadata bag
`data` that the source reads (`data.type`, `data.colWidths`,
`data.invalidChildren`), the optional child sequence, and the optional
literal `value` of `html` nodes.  An absent `data` bag is identified
with a bag whose three read fields are all absent, which is
observationally equal for every access the source performs
(`child.data?.type`, `table.data?.colWidths`,
`cell.data?.invalidChildren`). -/
inductive MNode : Type where
  | mk (ntype : String) (dtype : Option String) (colWidths : Option (List ℚ))
      (invalidChildren : Option (List MNode)) (children : Option (List MNode))
      (value : Option String)

def MNode.ntype : MNode → String
  | .mk t _ _ _ _ _ => t

def MNode.dtype : MNode → Option String
  | .mk _ d _ _ _ _ => d

def MNode.colWidths : MNode → Option (List ℚ)
  | .mk _ _ w _ _ _ => w

def MNode.invalidChildren : MNode → Option (List MNode)
  | .mk _ _ _ ic _ _ => ic

def MNode.children : MNode → Option (List MNode)
  | .mk _ _ _ _ c _ => c

def MNode.value : MNode → Option String
  | .mk _ _ _ _ _ v => v

/-- Predicate `isParent` (utils.ts line 135): a node with a `children` field. -/
def isParent (n : MNode) : Bool := n.children.isSome

/-- The grid check of `visit` (utils.ts line 180):
`child.type === 'table' && child.data?.type === 'grid'`. -/
def isGridTable (n : MNode) : Bool :=
  n.ntype == "table" && n.dtype == some "grid"

/-- A node's child list, defaulting to empty. -/
def mchildren (n : MNode) : List MNode := n.children.getD []

/-! ### The hast presentational tree (the `HastNode` interface of
utils.ts lines 142–147). -/
inductive HastNode : Type where
  | mk (htype : String) (tagName : Option String)
      (properties : List (String × String)) (children : Option (List HastNode))

def HastNode.htype : HastNode → String
  | .mk t _ _ _ => t

def HastNode.tagName : HastNode → Option String
  | .mk _ tag _ _ => tag

def HastNode.properties : HastNode → List (String × String)
  | .mk _ _ p _ => p

def HastNode.children : HastNode → Option (List HastNode)
  | .mk _ _ _ c => c

mutual

/-- Function `findTableElement` (utils.ts lines 149–157): depth-first pre-order
search for the first `element` node with tag `table`. -/
def findTableElement : HastNode → Option HastNode
  | .mk t tag props ch =>
    if t == "element" && tag == some "table" then some (.mk t tag props ch)
    else
      match ch with
      | none => none
      | some cs => findTableInList cs

def findTableInList : List HastNode → Option HastNode
  | [] => none
  | c :: cs =>
    match findTableElement c with
    | some found => some found
    | none => findTableInList cs

end

/-- The `col` element built for one normalized width (utils.ts lines
190–197). -/
def mkCol (w : String) : HastNode :=
  .mk "element" (some "col") [("style", "width: " ++ w)] (some [])

/-- The `colgroup` element built from the normalized widths (utils.ts
lines 187–198). -/
def mkColgroup (ws : List String) : HastNode :=
  .mk "element" (some "colgroup") [] (some (ws.map mkCol))

mutual

/-- Purified form of the in-place mutation
`tableElement.children = [colgroup, ...(tableElement.children ?? [])]`
performed through the reference returned by `findTableElement`: rewrite
the first table element in the same depth-first pre-order, prepending
`cg` to its children; the boolean reports whether a table was found. -/
def injectNode (cg : HastNode) : HastNode → HastNode × Bool
  | .mk t tag props ch =>
    if t == "element" && tag == some "table" then
      (.mk t tag props (some (cg :: ch.getD [])), true)
    else
      match ch with
      | none => (.mk t tag props none, false)
      | some cs =>
        match injectList cg cs with
        | (cs', found) => (.mk t tag props (some cs'), found)

def injectList (cg : HastNode) : List HastNode → List HastNode × Bool
  | [] => ([], false)
  | c :: cs =>
    match injectNode cg c with
    | (c', true) => (c' :: cs, true)
    | (_, false) =>
      match injectList cg cs with
      | (cs', found) => (c :: cs', found)

end

/-- Function `extractColumnWidths` (utils.ts lines 166–174). -/
def extractColumnWidths (t : MNode) : Option (List String) :=
  match t.colWidths with
  | none => none
  | some ws =>
    if ws.length = 0 then none
    else
      match mchildren t with
      | [] => none
      | r0 :: _ =>
        if ws.length ≠ (mchildren r0).length then none
        else some (ws.map fun w => normalizeWidthValue (jsNumberToString w))

section Rewriters

variable (toHastF : Bool → MNode → HastNode) (toHtmlF : Bool → HastNode → String)
variable (allow : Bool)

/-- The `html` node spliced in place of one grid table (utils.ts lines
181–206): serialize the table to hast, inject the `colgroup` when both
a table element and widths are available, and wrap the serialized HTML
string.  `toHastF` / `toHtmlF` are the abstract library boundary. -/
def gridReplacement (n : MNode) : MNode :=
  let hast := toHastF allow n
  let hast2 :=
    match findTableElement hast, extractColumnWidths n with
    | some _, some widths => (injectNode (mkColgroup widths) hast).1
    | _, _ => hast
  .mk "html" none none none none (some (toHtmlF allow hast2))

mutual

/-- The loop body of `visit` (utils.ts lines 176–214), purified: a grid
table child is replaced (and not descended into), a container child is
visited recursively, any other child is untouched. -/
def transformChild : MNode → MNode
  | .mk t d w ic ch v =>
    if isGridTable (.mk t d w ic ch v) then
      gridReplacement toHastF toHtmlF allow (.mk t d w ic ch v)
    else
      match ch with
      | some cs => .mk t d w ic (some (transformList cs)) v
      | none => .mk t d w ic none v

def transformList : List MNode → List MNode
  | [] => []
  | c :: cs => transformChild c :: transformList cs

end

/-- Function `transformGridToHtml` (utils.ts lines 138–217): `visit(root)`. -/
def transformGridToHtml (root : MNode) : MNode :=
  match root with
  | .mk t d w ic ch v =>
    match ch with
    | some cs => .mk t d w ic (some (transformList toHastF toHtmlF allow cs)) v
    | none => .mk t d w ic none v

end Rewriters

mutual

/-- No grid table occurs in this node or below it (descending through
`children` like `visit` does). -/
def gridFreeNode : MNode → Bool
  | .mk t d w ic ch v =>
    !isGridTable (.mk t d w ic ch v) &&
      (match ch with
       | some cs => gridFreeList cs
       | none => true)

def gridFreeList : List MNode → Bool
  | [] => true
  | c :: cs => gridFreeNode c && gridFreeList cs

end

/-- A table element with `cg` prepended to its children (the effect of
`tableElement.children = [colgroup, ...(tableElement.children ?? [])]`). -/
def prependTable (cg t : HastNode) : HastNode :=
  HastNode.mk t.htype t.tagName t.properties (some (cg :: t.children.getD []))

/-- Trivial serializers used to instantiate the abstract library
boundary in concrete runs: a leaf hast node and a constant string. -/
def dummyToHast : Bool → MNode → HastNode :=
  fun _ _ => HastNode.mk "text" none [] none

def dummyToHtml : Bool → HastNode → String := fun _ _ => "<table></table>"

/-- A serializer whose hast output is a bare table element. -/
def tableToHast : Bool → MNode → HastNode :=
  fun _ _ => HastNode.mk "element" (some "table") [] (some [])

/-! ### `transformInvalidTablesToHtml` (utils.ts lines 98–133) -/
mutual

/-- Structural equality on nodes, the proxy for JS reference identity in
`findIndex(child => child === invalidTable.inner)`. -/
def beqNode : MNode → MNode → Bool
  | .mk t1 d1 w1 ic1 c1 v1, .mk t2 d2 w2 ic2 c2 v2 =>
    decide (t1 = t2) && decide (d1 = d2) && decide (w1 = w2) &&
      beqOptList ic1 ic2 && beqOptList c1 c2 && decide (v1 = v2)

def beqOptList : Option (List MNode) → Option (List MNode) → Bool
  | none, none => true
  | some l1, some l2 => beqList l1 l2
  | _, _ => false

def beqList : List MNode → List MNode → Bool
  | [], [] => true
  | a :: l1, b :: l2 => beqNode a b && beqList l1 l2
  | _, _ => false

end

/-- Model of `parent.children.findIndex(child => child === inner)`, as an
optional index (`none` for `-1`), scanning left to right. -/
def findIdentityAux (inner : MNode) : List MNode → Nat → Option Nat
  | [], _ => none
  | c :: cs, i =>
    if beqNode c inner then some i else findIdentityAux inner cs (i + 1)

def findIdentity (cs : List MNode) (inner : MNode) : Option Nat :=
  findIdentityAux inner cs 0

/-- The derived copy of one cell:
`{...cell, children: cell.data?.invalidChildren ?? cell.children}`. -/
def derivedCell (cell : MNode) : MNode :=
  MNode.mk cell.ntype cell.dtype cell.colWidths cell.invalidChildren
    (match cell.invalidChildren with
     | some ic => some ic
     | none => cell.children)
    cell.value

/-- The derived copy of one row:
`{...row, children: row.children.map(cell => derivedCell cell)}`. -/
def derivedRow (row : MNode) : MNode :=
  MNode.mk row.ntype row.dtype row.colWidths row.invalidChildren
    (some ((mchildren row).map derivedCell)) row.value

/-- The derived copy of the invalid table handed to `toHast`
(utils.ts lines 111–121). -/
def derivedCopy (inner : MNode) : MNode :=
  MNode.mk inner.ntype inner.dtype inner.colWidths inner.invalidChildren
    (some ((mchildren inner).map derivedRow)) inner.value

/-- An invalid-table record: a reference to the parent container and to
the malformed table node itself. -/
structure InvalidTable where
  parent : Option MNode
  inner : MNode

section InvalidRewriter

variable (toHastF : Bool → MNode → HastNode) (toHtmlF : Bool → HastNode → String)
variable (allow : Bool)

/-- The `html` node spliced in place of one invalid table (utils.ts
lines 107–130). -/
def invalidReplacement (inner : MNode) : MNode :=
  MNode.mk "html" none none none none
    (some (toHtmlF allow (toHastF allow (derivedCopy inner))))

/-- One iteration of the `forEach` of `transformInvalidTablesToHtml`,
purified: from the parent's old child sequence (`none` when the record
has no parent) to the new one. -/
def transformInvalidTable (parentChildren : Option (List MNode))
    (inner : MNode) : Option (List MNode) :=
  match parentChildren with
  | none => none
  | some cs =>
    match findIdentity cs inner with
    | none => some cs
    | some i => some (cs.set i (invalidReplacement toHastF toHtmlF allow inner))

/-- Function `transformInvalidTablesToHtml` (utils.ts lines 98–133), purified:
the new child sequence of each record's parent. -/
def transformInvalidTablesToHtml (its : List InvalidTable) :
    List (Option (List MNode)) :=
  its.map fun it =>
    transformInvalidTable toHastF toHtmlF allow
      (it.parent.bind MNode.children) it.inner

end InvalidRewriter

theorem toNat_digitChar (n : Nat) (h : n < 10) : (digitChar n).toNat = 48 + n := by
  interval_cases n <;> decide

theorem decVal_append_digit (l : List Char) (c : Char) :
    decVal (l ++ [c]) = decVal l * 10 + (c.toNat - 48) := by
  simp [decVal, List.foldl_append]

theorem decVal_natToDecimalAux : ∀ f n, n < f → decVal (natToDecimalAux f n) = n := by
  intro f
  induction f with
  | zero => intro n h; omega
  | succ f ih =>
    intro n h
    by_cases h10 : n < 10
    · simp only [natToDecimalAux, if_pos h10]
      simp [decVal, toNat_digitChar n h10]
    · simp only [natToDecimalAux, if_neg h10]
      rw [decVal_append_digit, ih (n / 10) (by omega), toNat_digitChar (n % 10) (by omega)]
      omega

theorem decVal_natToDecimal (n : Nat) : decVal (natToDecimal n) = n :=
  decVal_natToDecimalAux (n + 1) n (Nat.lt_succ_self n)

theorem natToDecimal_injective : Function.Injective natToDecimal := by
  intro a b h
  have := congrArg decVal h
  rwa [decVal_natToDecimal, decVal_natToDecimal] at this

/-- Injectivity of `k ↦ mk (a ++ natToDecimal k ++ b)` for fixed
surrounding character lists. -/
theorem surround_decimal_injective (a b : List Char) :
    Function.Injective (fun k => String.mk (a ++ natToDecimal k ++ b)) := by
  intro x y h
  have hd : a ++ natToDecimal x ++ b = a ++ natToDecimal y ++ b :=
    congrArg String.data h
  exact natToDecimal_injective
    (List.append_cancel_left (List.append_cancel_right hd))

theorem mkCandidate_injective (origin : String) :
    Function.Injective (mkCandidate origin) := by
  intro x y h
  unfold mkCandidate at h
  cases hd : lastDotIdx origin with
  | none =>
      rw [hd] at h
      dsimp only at h
      have h1 : origin.data ++ '-' :: natToDecimal x =
          origin.data ++ '-' :: natToDecimal y := congrArg String.data h
      have h2 := List.append_cancel_left h1
      simp only [List.cons.injEq, true_and] at h2
      exact natToDecimal_injective h2
  | some i =>
      rw [hd] at h
      dsimp only at h
      have h1 : origin.data.take i ++ ('-' :: natToDecimal x) ++ origin.data.drop i =
          origin.data.take i ++ ('-' :: natToDecimal y) ++ origin.data.drop i := by
        have := congrArg String.data h
        simpa [List.append_assoc] using this
      have h2 := List.append_cancel_left (List.append_cancel_right h1)
      simp only [List.cons.injEq, true_and] at h2
      exact natToDecimal_injective h2

/-! ### Termination of the allocator loops: among any `used.length + 1`
pairwise-distinct candidates at least one is unused. -/
theorem exists_fresh (g : Nat → String) (hg : Function.Injective g)
    (used : List String) :
    ∃ j, 1 ≤ j ∧ j ≤ used.length + 1 ∧ g j ∉ used := by
  by_contra hc
  push_neg at hc
  have himg : Finset.image (fun k : Fin (used.length + 1) => g (k.val + 1))
      Finset.univ ⊆ used.toFinset := by
    intro s hs
    simp only [Finset.mem_image, Finset.mem_univ, true_and] at hs
    obtain ⟨k, hk⟩ := hs
    rw [List.mem_toFinset]
    exact hk ▸ hc (k.val + 1) (by omega) (by omega)
  have hcard := Finset.card_le_card himg
  have hinj : Function.Injective
      (fun k : Fin (used.length + 1) => g (k.val + 1)) := by
    intro a b hab
    have := hg hab
    exact Fin.ext (by omega)
  rw [Finset.card_image_of_injective _ hinj, Finset.card_univ,
    Fintype.card_fin] at hcard
  have := used.toFinset_card_le
  omega

theorem genLoop_exit (origin : String) (fuel : Nat) (current : String)
    (st : UFState) (h : current ∉ st.used) :
    genLoop origin fuel current st = some (current, ⟨current :: st.used, st.pre⟩) := by
  cases fuel <;> simp [genLoop, h]

theorem genLoop_step (origin : String) (f : Nat) (current : String)
    (st : UFState) (h : current ∈ st.used) :
    genLoop origin (f + 1) current st =
      genLoop origin f (mkCandidate origin (st.pre origin + 1))
        ⟨st.used, Function.update st.pre origin (st.pre origin + 1)⟩ := by
  simp [genLoop, h]

theorem genLoop_isSome (origin : String) : ∀ (fuel : Nat) (current : String)
    (st : UFState),
    (∃ j, 1 ≤ j ∧ j ≤ fuel ∧ mkCandidate origin (st.pre origin + j) ∉ st.used) →
    (genLoop origin fuel current st).isSome := by
  intro fuel
  induction fuel with
  | zero =>
    intro current st h
    by_cases hm : current ∈ st.used
    · obtain ⟨j, h1, h2, _⟩ := h
      omega
    · rw [genLoop_exit origin 0 current st hm]
      rfl
  | succ f ih =>
    intro current st h
    by_cases hm : current ∈ st.used
    · rw [genLoop_step origin f current st hm]
      obtain ⟨j, h1, h2, h3⟩ := h
      by_cases hj : j = 1
      · subst hj
        have h3' : mkCandidate origin (st.pre origin + 1) ∉
            (UFState.mk st.used
              (Function.update st.pre origin (st.pre origin + 1))).used := h3
        rw [genLoop_exit _ _ _ _ h3']
        rfl
      · apply ih
        refine ⟨j - 1, by omega, by omega, ?_⟩
        show mkCandidate origin
          (Function.update st.pre origin (st.pre origin + 1) origin + (j - 1)) ∉ st.used
        rw [Function.update_same]
        have : st.pre origin + 1 + (j - 1) = st.pre origin + j := by omega
        rw [this]
        exact h3
    · rw [genLoop_exit origin (f + 1) current st hm]
      rfl

/-- Totality: `generate` always succeeds with the fuel chosen by the wrapper: the
embedded `while` loop of the source always terminates. -/
theorem generate_isSome (st : UFState) (origin : String) :
    (generate st origin).isSome := by
  apply genLoop_isSome
  have hinj : Function.Injective (fun j => mkCandidate origin (st.pre origin + j)) := by
    intro a b hab
    have := mkCandidate_injective origin hab
    omega
  exact exists_fresh _ hinj st.used

theorem genLoop_spec (origin : String) : ∀ (fuel : Nat) (current : String)
    (st : UFState) (n : String) (st' : UFState),
    genLoop origin fuel current st = some (n, st') →
    n ∉ st.used ∧ st'.used = n :: st.used ∧ ∀ k, st.pre k ≤ st'.pre k := by
  intro fuel
  induction fuel with
  | zero =>
    intro current st n st' h
    by_cases hm : current ∈ st.used
    · rw [genLoop, if_pos hm] at h
      exact absurd h (by simp)
    · rw [genLoop_exit origin 0 current st hm] at h
      obtain ⟨h1, h2⟩ := Prod.mk.injEq .. ▸ Option.some.inj h
      subst h1; subst h2
      exact ⟨hm, rfl, fun k => le_refl _⟩
  | succ f ih =>
    intro current st n st' h
    by_cases hm : current ∈ st.used
    · rw [genLoop_step origin f current st hm] at h
      obtain ⟨ha, hb, hc⟩ := ih _ _ _ _ h
      refine ⟨ha, hb, fun k => le_trans ?_ (hc k)⟩
      show st.pre k ≤ Function.update st.pre origin (st.pre origin + 1) k
      by_cases hk : k = origin
      · subst hk
        rw [Function.update_same]
        omega
      · rw [Function.update_noteq hk]
    · rw [genLoop_exit origin (f + 1) current st hm] at h
      obtain ⟨h1, h2⟩ := Prod.mk.injEq .. ▸ Option.some.inj h
      subst h1; subst h2
      exact ⟨hm, rfl, fun k => le_refl _⟩

theorem genLoop_counter (origin : String) : ∀ (fuel : Nat) (current : String)
    (st : UFState) (n : String) (st' : UFState),
    genLoop origin fuel current st = some (n, st') →
    (current ∉ st.used ∧ n = current ∧ st' = ⟨current :: st.used, st.pre⟩) ∨
    (current ∈ st.used ∧ ∃ j, 1 ≤ j ∧
      n = mkCandidate origin (st.pre origin + j) ∧ n ∉ st.used ∧
      (∀ j', 1 ≤ j' → j' < j →
        mkCandidate origin (st.pre origin + j') ∈ st.used) ∧
      st'.used = n :: st.used ∧ st'.pre origin = st.pre origin + j ∧
      (∀ k, k ≠ origin → st'.pre k = st.pre k)) := by
  intro fuel
  induction fuel with
  | zero =>
    intro current st n st' h
    by_cases hm : current ∈ st.used
    · rw [genLoop, if_pos hm] at h
      exact absurd h (by simp)
    · rw [genLoop_exit origin 0 current st hm] at h
      obtain ⟨h1, h2⟩ := Prod.mk.injEq .. ▸ Option.some.inj h
      exact Or.inl ⟨hm, h1.symm, h2.symm⟩
  | succ f ih =>
    intro current st n st' h
    by_cases hm : current ∈ st.used
    · rw [genLoop_step origin f current st hm] at h
      rcases ih _ _ _ _ h with ⟨ha, hb, hc⟩ | ⟨ha, j, hj1, hj2, hj3, hj4, hj5, hj6, hj7⟩
      · refine Or.inr ⟨hm, 1, le_refl 1, ?_, ?_, ?_, ?_, ?_, ?_⟩
        · rw [hb]
        · rw [hb]; exact ha
        · intro j' hj1 hj2; omega
        · rw [hc, hb]
        · rw [hc]
          show Function.update st.pre origin (st.pre origin + 1) origin =
            st.pre origin + 1
          rw [Function.update_same]
        · intro k hk
          rw [hc]
          show Function.update st.pre origin (st.pre origin + 1) k = st.pre k
          rw [Function.update_noteq hk]
      · have hpre : (UFState.mk st.used
            (Function.update st.pre origin (st.pre origin + 1))).pre origin =
            st.pre origin + 1 := Function.update_same origin _ st.pre
        refine Or.inr ⟨hm, j + 1, by omega, ?_, hj3, ?_, hj5, ?_, ?_⟩
        · rw [hj2, hpre]
          have : st.pre origin + 1 + j = st.pre origin + (j + 1) := by omega
          rw [this]
        · intro j' h1 h2
          by_cases hj' : j' = 1
          · subst hj'
            exact ha
          · have := hj4 (j' - 1) (by omega) (by omega)
            rw [hpre] at this
            have harith : st.pre origin + 1 + (j' - 1) = st.pre origin + j' := by
              omega
            rwa [harith] at this
        · rw [hj6, hpre]
          omega
        · intro k hk
          rw [hj7 k hk]
          exact Function.update_noteq hk _ _
    · rw [genLoop_exit origin (f + 1) current st hm] at h
      obtain ⟨h1, h2⟩ := Prod.mk.injEq .. ▸ Option.some.inj h
      exact Or.inl ⟨hm, h1.symm, h2.symm⟩

theorem uuidLoop_exit (uuid ext : String) (used : List String) (fuel : Nat)
    (current : String) (counter : Nat) (h : current ∉ used) :
    uuidLoop uuid ext used fuel current counter = some current := by
  cases fuel <;> simp [uuidLoop, h]

theorem uuidLoop_step (uuid ext : String) (used : List String) (f : Nat)
    (current : String) (counter : Nat) (h : current ∈ used) :
    uuidLoop uuid ext used (f + 1) current counter =
      uuidLoop uuid ext used f (uuidCand uuid ext counter) (counter + 1) := by
  simp [uuidLoop, h]

theorem uuidCand_injective (uuid ext : String) :
    Function.Injective (uuidCand uuid ext) := by
  intro x y h
  have h1 := congrArg String.data h
  simp only [uuidCand] at h1
  have h2 := List.append_cancel_left (List.append_cancel_right h1)
  simp only [List.cons.injEq, true_and] at h2
  exact natToDecimal_injective h2

theorem uuidLoop_isSome (uuid ext : String) (used : List String) :
    ∀ (fuel : Nat) (current : String) (counter : Nat),
    (∃ j, counter ≤ j ∧ j < counter + fuel ∧ uuidCand uuid ext j ∉ used) →
    (uuidLoop uuid ext used fuel current counter).isSome := by
  intro fuel
  induction fuel with
  | zero =>
    intro current counter h
    by_cases hm : current ∈ used
    · obtain ⟨j, h1, h2, _⟩ := h
      omega
    · rw [uuidLoop_exit uuid ext used 0 current counter hm]
      rfl
  | succ f ih =>
    intro current counter h
    by_cases hm : current ∈ used
    · rw [uuidLoop_step uuid ext used f current counter hm]
      obtain ⟨j, h1, h2, h3⟩ := h
      by_cases hj : j = counter
      · subst hj
        rw [uuidLoop_exit _ _ _ _ _ _ h3]
        rfl
      · exact ih _ _ ⟨j, by omega, by omega, h3⟩
    · rw [uuidLoop_exit uuid ext used (f + 1) current counter hm]
      rfl

theorem uuidLoop_spec (uuid ext : String) (used : List String) :
    ∀ (fuel : Nat) (current : String) (counter : Nat) (n : String),
    uuidLoop uuid ext used fuel current counter = some n → n ∉ used := by
  intro fuel
  induction fuel with
  | zero =>
    intro current counter n h
    by_cases hm : current ∈ used
    · rw [uuidLoop, if_pos hm] at h
      exact absurd h (by simp)
    · rw [uuidLoop_exit uuid ext used 0 current counter hm] at h
      exact Option.some.inj h ▸ hm
  | succ f ih =>
    intro current counter n h
    by_cases hm : current ∈ used
    · rw [uuidLoop_step uuid ext used f current counter hm] at h
      exact ih _ _ _ h
    · rw [uuidLoop_exit uuid ext used (f + 1) current counter hm] at h
      exact Option.some.inj h ▸ hm

theorem uuidLoop_counter (uuid ext : String) (used : List String) :
    ∀ (fuel : Nat) (current : String) (counter : Nat) (n : String),
    uuidLoop uuid ext used fuel current counter = some n →
    (current ∉ used ∧ n = current) ∨
    (current ∈ used ∧ ∃ j, counter ≤ j ∧ n = uuidCand uuid ext j ∧ n ∉ used ∧
      ∀ j', counter ≤ j' → j' < j → uuidCand uuid ext j' ∈ used) := by
  intro fuel
  induction fuel with
  | zero =>
    intro current counter n h
    by_cases hm : current ∈ used
    · rw [uuidLoop, if_pos hm] at h
      exact absurd h (by simp)
    · rw [uuidLoop_exit uuid ext used 0 current counter hm] at h
      exact Or.inl ⟨hm, (Option.some.inj h).symm⟩
  | succ f ih =>
    intro current counter n h
    by_cases hm : current ∈ used
    · rw [uuidLoop_step uuid ext used f current counter hm] at h
      rcases ih _ _ _ h with ⟨ha, hb⟩ | ⟨ha, j, hj1, hj2, hj3, hj4⟩
      · exact Or.inr ⟨hm, counter, le_refl counter, hb ▸ rfl, hb ▸ ha,
          fun j' h1 h2 => absurd h1 (by omega)⟩
      · refine Or.inr ⟨hm, j, by omega, hj2, hj3, ?_⟩
        intro j' h1 h2
        by_cases hj' : j' = counter
        · subst hj'
          exact ha
        · exact hj4 j' (by omega) h2
    · rw [uuidLoop_exit uuid ext used (f + 1) current counter hm] at h
      exact Or.inl ⟨hm, (Option.some.inj h).symm⟩

/-- Totality: `generateWithUUID` always succeeds with the fuel chosen by the
wrapper. -/
theorem generateWithUUID_isSome (uuid : String) (st : UFState) (origin : String) :
    (generateWithUUID uuid st origin).isSome := by
  unfold generateWithUUID
  have hs := uuidLoop_isSome uuid (extOf origin) st.used (st.used.length + 1)
    (String.mk (uuid.data ++ (extOf origin).data)) 1
    (by
      obtain ⟨j, h1, h2, h3⟩ :=
        exists_fresh (uuidCand uuid (extOf origin)) (uuidCand_injective uuid _) st.used
      exact ⟨j, h1, by omega, h3⟩)
  obtain ⟨n, hn⟩ := Option.isSome_iff_exists.mp hs
  rw [hn]
  rfl

theorem generateWithUUID_spec (uuid : String) (st : UFState) (origin : String)
    (n : String) (st' : UFState)
    (h : generateWithUUID uuid st origin = some (n, st')) :
    n ∉ st.used ∧ st'.used = n :: st.used ∧ st'.pre = st.pre := by
  unfold generateWithUUID at h
  cases hl : uuidLoop uuid (extOf origin) st.used (st.used.length + 1)
      (String.mk (uuid.data ++ (extOf origin).data)) 1 with
  | none => rw [hl] at h; exact absurd h (by simp)
  | some m =>
    rw [hl] at h
    obtain ⟨h1, h2⟩ := Prod.mk.injEq .. ▸ Option.some.inj h
    have hm := uuidLoop_spec uuid (extOf origin) st.used _ _ _ _ hl
    subst h1
    exact ⟨hm, by rw [← h2], by rw [← h2]⟩

theorem generate_spec (st : UFState) (origin n : String) (st' : UFState)
    (h : generate st origin = some (n, st')) :
    n ∉ st.used ∧ st'.used = n :: st.used ∧ ∀ k, st.pre k ≤ st'.pre k :=
  genLoop_spec origin _ _ _ _ _ h

theorem stepAlloc_spec (st : UFState) (c : AllocCmd) (n : String) (st' : UFState)
    (h : stepAlloc st c = some (n, st')) :
    n ∉ st.used ∧ st'.used = n :: st.used := by
  cases c with
  | gen o =>
    obtain ⟨h1, h2, _⟩ := generate_spec st o n st' h
    exact ⟨h1, h2⟩
  | genU u o =>
    obtain ⟨h1, h2, _⟩ := generateWithUUID_spec u st o n st' h
    exact ⟨h1, h2⟩

theorem stepAlloc_isSome (st : UFState) (c : AllocCmd) :
    (stepAlloc st c).isSome := by
  cases c with
  | gen o => exact generate_isSome st o
  | genU u o => exact generateWithUUID_isSome u st o

theorem runAlloc_spec : ∀ (cs : List AllocCmd) (st : UFState) (ns : List String)
    (stf : UFState), runAlloc st cs = some (ns, stf) →
    ns.Pairwise (· ≠ ·) ∧ (∀ m ∈ ns, m ∈ stf.used ∧ m ∉ st.used) ∧
      (∀ s ∈ st.used, s ∈ stf.used) := by
  intro cs
  induction cs with
  | nil =>
    intro st ns stf h
    obtain ⟨h1, h2⟩ := Prod.mk.injEq .. ▸ Option.some.inj h
    subst h1; subst h2
    exact ⟨List.Pairwise.nil, by simp, fun s hs => hs⟩
  | cons c cs ih =>
    intro st ns stf h
    rw [runAlloc] at h
    cases hstep : stepAlloc st c with
    | none => rw [hstep] at h; exact absurd h (by simp)
    | some p =>
      obtain ⟨n, st'⟩ := p
      rw [hstep] at h
      dsimp only at h
      cases hrun : runAlloc st' cs with
      | none => rw [hrun] at h; exact absurd h (by simp)
      | some q =>
        obtain ⟨ns', stf'⟩ := q
        rw [hrun] at h
        dsimp only at h
        obtain ⟨h1, h2⟩ := Prod.mk.injEq .. ▸ Option.some.inj h
        subst h1; subst h2
        obtain ⟨hn1, hn2⟩ := stepAlloc_spec st c n st' hstep
        obtain ⟨ih1, ih2, ih3⟩ := ih st' ns' stf' hrun
        refine ⟨?_, ?_, ?_⟩
        · refine List.Pairwise.cons ?_ ih1
          intro m hm heq
          have := (ih2 m hm).2
          rw [hn2] at this
          exact this (heq ▸ List.mem_cons_self n st.used)
        · intro m hm
          rcases List.mem_cons.mp hm with hm | hm
          · subst hm
            refine ⟨?_, hn1⟩
            have : m ∈ st'.used := hn2 ▸ List.mem_cons_self m st.used
            exact ih3 m this
          · refine ⟨(ih2 m hm).1, fun hc => (ih2 m hm).2 ?_⟩
            rw [hn2]
            exact List.mem_cons_of_mem n hc
        · intro s hs
          apply ih3
          rw [hn2]
          exact List.mem_cons_of_mem n hs

theorem runAlloc_isSome : ∀ (cs : List AllocCmd) (st : UFState),
    (runAlloc st cs).isSome := by
  intro cs
  induction cs with
  | nil => intro st; rfl
  | cons c cs ih =>
    intro st
    rw [runAlloc]
    cases hstep : stepAlloc st c with
    | none =>
      have := stepAlloc_isSome st c
      rw [hstep] at this
      exact absurd this (by simp)
    | some p =>
      obtain ⟨n, st'⟩ := p
      dsimp only
      cases hrun : runAlloc st' cs with
      | none =>
        have := ih st'
        rw [hrun] at this
        exact absurd this (by simp)
      | some q =>
        obtain ⟨ns, stf⟩ := q
        rfl

/-- Claim C1: for every interleaving of `generate` / `generateWithUUID`
calls on one `UniqueFileName` instance, the run always succeeds, all
returned names are pairwise distinct, and each returned name is absent
from the used-name set when the call starts and recorded in it when the
call returns. -/
theorem claim_C1 :
    (∀ cs : List AllocCmd, (runNames cs).isSome) ∧
    (∀ (cs : List AllocCmd) (ns : List String),
      runNames cs = some ns → ns.Pairwise (· ≠ ·)) ∧
    (∀ (st : UFState) (c : AllocCmd) (n : String) (st' : UFState),
      stepAlloc st c = some (n, st') → n ∉ st.used ∧ n ∈ st'.used) := by
  refine ⟨?_, ?_, ?_⟩
  · intro cs
    have := runAlloc_isSome cs UFState.initial
    unfold runNames
    cases h : runAlloc UFState.initial cs with
    | none => rw [h] at this; exact absurd this (by simp)
    | some p => rfl
  · intro cs ns h
    unfold runNames at h
    cases hr : runAlloc UFState.initial cs with
    | none => rw [hr] at h; exact absurd h (by simp)
    | some p =>
      obtain ⟨ns', stf⟩ := p
      rw [hr] at h
      have hns : ns' = ns := Option.some.inj h
      subst hns
      exact (runAlloc_spec cs UFState.initial ns' stf hr).1
  · intro st c n st' h
    obtain ⟨h1, h2⟩ := stepAlloc_spec st c n st' h
    exact ⟨h1, h2 ▸ List.mem_cons_self n st.used⟩

/-- Concrete run exercising claim C1: two colliding `generate` calls and
one `generateWithUUID` call return pairwise distinct names. -/
theorem claim_C1_witness :
    (["a.txt", "a-1.txt", "u.png"] : List String).Pairwise (· ≠ ·) :=
  claim_C1.2.1 [.gen "a.txt", .gen "a.txt", .genU "u" "b.png"]
    ["a.txt", "a-1.txt", "u.png"] (by decide)

/-- Claim C5: `generate` returns the base name unchanged when unused;
on a collision it splices `-<n>` between stem and extension with `n`
starting at the per-base counter plus one and incrementing once per
collision until a free name is found, and the counter is advanced to
the last attempted value and persists across calls; concrete
determinism examples. -/
theorem claim_C5 :
    (∀ (st : UFState) (o : String), o ∉ st.used →
      generate st o = some (o, ⟨o :: st.used, st.pre⟩)) ∧
    (∀ (st : UFState) (o : String), o ∈ st.used →
      mkCandidate o (st.pre o + 1) ∉ st.used →
      generate st o = some (mkCandidate o (st.pre o + 1),
        ⟨mkCandidate o (st.pre o + 1) :: st.used,
          Function.update st.pre o (st.pre o + 1)⟩)) ∧
    (∀ (st : UFState) (o n : String) (st' : UFState),
      generate st o = some (n, st') → ∀ k, st.pre k ≤ st'.pre k) ∧
    runNames [.gen "a.txt", .gen "a.txt", .gen "a.txt"] =
      some ["a.txt", "a-1.txt", "a-2.txt"] ∧
    runNames [.gen "README", .gen "README"] = some ["README", "README-1"] ∧
    (∀ (st : UFState) (o n : String) (st' : UFState),
      generate st o = some (n, st') → o ∈ st.used →
      ∃ j, 1 ≤ j ∧ n = mkCandidate o (st.pre o + j) ∧ n ∉ st.used ∧
        (∀ j', 1 ≤ j' → j' < j → mkCandidate o (st.pre o + j') ∈ st.used) ∧
        st'.pre o = st.pre o + j ∧ (∀ k, k ≠ o → st'.pre k = st.pre k) ∧
        st'.used = n :: st.used) := by
  refine ⟨?_, ?_, ?_, ?_, ?_, ?_⟩
  · intro st o h
    exact genLoop_exit o (st.used.length + 1) o st h
  · intro st o h1 h2
    show genLoop o (st.used.length + 1) o st = _
    rw [genLoop_step o st.used.length o st h1]
    have h2' : mkCandidate o (st.pre o + 1) ∉
        (UFState.mk st.used (Function.update st.pre o (st.pre o + 1))).used := h2
    rw [genLoop_exit _ _ _ _ h2']
  · intro st o n st' h
    exact (generate_spec st o n st' h).2.2
  · rfl
  · rfl
  · intro st o n st' h hm
    rcases genLoop_counter o (st.used.length + 1) o st n st' h with
      ⟨hno, _, _⟩ | ⟨_, j, hj1, hj2, hj3, hj4, hj5, hj6, hj7⟩
    · exact absurd hm hno
    · exact ⟨j, hj1, hj2, hj3, hj4, hj6, hj7, hj5⟩

/-- Concrete instantiations of claim C5: the unused case and the
one-collision case, with the counter advanced to `1`. -/
theorem claim_C5_witness :
    generate UFState.initial "x" = some ("x", ⟨["x"], fun _ => 0⟩) ∧
    generate ⟨["a.txt"], fun _ => 0⟩ "a.txt" =
      some ("a-1.txt", ⟨["a-1.txt", "a.txt"],
        Function.update (fun _ => 0) "a.txt" 1⟩) :=
  ⟨claim_C5.1 UFState.initial "x" (by decide),
    claim_C5.2.1 ⟨["a.txt"], fun _ => 0⟩ "a.txt" (by decide) (by decide)⟩

/-- Claim C8: `generateWithUUID` takes the extension from the last dot
onward (empty when absent), returns `<token><extension>` when free, on a
collision appends `-<counter>` before the extension with the counter
starting at `1` and incrementing until a free name is found, and never
reads or writes the per-base-name counter map of `generate`. -/
theorem claim_C8 :
    (∀ o : String,
      (lastDotIdx o = none → extOf o = "") ∧
      (∀ i, lastDotIdx o = some i → extOf o = String.mk (o.data.drop i))) ∧
    (∀ (uuid : String) (st : UFState) (o : String),
      String.mk (uuid.data ++ (extOf o).data) ∉ st.used →
      generateWithUUID uuid st o =
        some (String.mk (uuid.data ++ (extOf o).data),
          ⟨String.mk (uuid.data ++ (extOf o).data) :: st.used, st.pre⟩)) ∧
    (∀ (uuid : String) (st : UFState) (o : String),
      String.mk (uuid.data ++ (extOf o).data) ∈ st.used →
      uuidCand uuid (extOf o) 1 ∉ st.used →
      generateWithUUID uuid st o = some (uuidCand uuid (extOf o) 1,
        ⟨uuidCand uuid (extOf o) 1 :: st.used, st.pre⟩)) ∧
    (∀ (uuid : String) (st : UFState) (o n : String) (st' : UFState),
      generateWithUUID uuid st o = some (n, st') → st'.pre = st.pre) ∧
    (∀ (uuid : String) (st : UFState) (o n : String) (st' : UFState),
      generateWithUUID uuid st o = some (n, st') →
      String.mk (uuid.data ++ (extOf o).data) ∈ st.used →
      ∃ j, 1 ≤ j ∧ n = uuidCand uuid (extOf o) j ∧ n ∉ st.used ∧
        ∀ j', 1 ≤ j' → j' < j → uuidCand uuid (extOf o) j' ∈ st.used) := by
  refine ⟨?_, ?_, ?_, ?_, ?_⟩
  · intro o
    constructor
    · intro h
      unfold extOf
      rw [h]
    · intro i h
      unfold extOf
      rw [h]
  · intro uuid st o h
    unfold generateWithUUID
    rw [uuidLoop_exit _ _ _ _ _ _ h]
  · intro uuid st o h1 h2
    unfold generateWithUUID
    rw [uuidLoop_step _ _ _ _ _ _ h1, uuidLoop_exit _ _ _ _ _ _ h2]
  · intro uuid st o n st' h
    exact (generateWithUUID_spec uuid st o n st' h).2.2
  · intro uuid st o n st' h hm
    unfold generateWithUUID at h
    cases hl : uuidLoop uuid (extOf o) st.used (st.used.length + 1)
        (String.mk (uuid.data ++ (extOf o).data)) 1 with
    | none =>
      rw [hl] at h
      exact absurd h (by simp)
    | some m =>
      rw [hl] at h
      obtain ⟨h1, _⟩ := Prod.mk.injEq .. ▸ Option.some.inj h
      subst h1
      rcases uuidLoop_counter uuid (extOf o) st.used (st.used.length + 1)
          (String.mk (uuid.data ++ (extOf o).data)) 1 m hl with
        ⟨hno, _⟩ | ⟨_, j, hj1, hj2, hj3, hj4⟩
      · exact absurd hm hno
      · exact ⟨j, hj1, hj2, hj3, hj4⟩

/-- Concrete instantiations of claim C8: the collision-free case and the
first-collision case. -/
theorem claim_C8_witness :
    generateWithUUID "u" UFState.initial "a.png" =
      some ("u.png", ⟨["u.png"], fun _ => 0⟩) ∧
    generateWithUUID "u" ⟨["u.png"], fun _ => 0⟩ "a.png" =
      some ("u-1.png", ⟨["u-1.png", "u.png"], fun _ => 0⟩) :=
  ⟨claim_C8.2.1 "u" UFState.initial "a.png" (by decide),
    claim_C8.2.2.1 "u" ⟨["u.png"], fun _ => 0⟩ "a.png" (by decide) (by decide)⟩

/-- Claim C4: `normalizeWidthValue` passes `%`-containing, alphabetic
and non-numeric strings through unchanged; otherwise values `≤ 1` map
to `value * 100` with a `%` suffix and values `> 1` map to `value` with
a `px` suffix; `"0.5" → "50%"`, `"300" → "300px"`, `"50%"` and
`"auto"` are unchanged. -/
theorem claim_C4 :
    (∀ v : String, (v.data.contains '%' || v.data.any Char.isAlpha) = true →
      normalizeWidthValue v = v) ∧
    (∀ v : String, (v.data.contains '%' || v.data.any Char.isAlpha) = false →
      jsStrToNumber v = none → normalizeWidthValue v = v) ∧
    (∀ (v : String) (q : ℚ),
      (v.data.contains '%' || v.data.any Char.isAlpha) = false →
      jsStrToNumber v = some q → q ≤ 1 →
      normalizeWidthValue v = jsNumberToString (q * 100) ++ "%") ∧
    (∀ (v : String) (q : ℚ),
      (v.data.contains '%' || v.data.any Char.isAlpha) = false →
      jsStrToNumber v = some q → 1 < q →
      normalizeWidthValue v = jsNumberToString q ++ "px") ∧
    normalizeWidthValue "0.5" = "50%" ∧
    normalizeWidthValue "300" = "300px" ∧
    normalizeWidthValue "50%" = "50%" ∧
    normalizeWidthValue "auto" = "auto" := by
  refine ⟨?_, ?_, ?_, ?_, by with_unfolding_all rfl, by with_unfolding_all rfl,
    by decide, by decide⟩
  · intro v h
    unfold normalizeWidthValue
    rw [h]
    rfl
  · intro v h hn
    unfold normalizeWidthValue
    rw [h, hn]
    rfl
  · intro v q h hq hle
    unfold normalizeWidthValue
    rw [h, hq]
    simp only [Bool.false_eq_true, if_false, if_pos hle]
  · intro v q h hq hlt
    unfold normalizeWidthValue
    rw [h, hq]
    simp only [Bool.false_eq_true, if_false, if_neg (not_le.mpr hlt)]

/-- Concrete instantiations of claim C4's conditional clauses: a ratio
width, a pixel width and a `NaN` fallback. -/
theorem claim_C4_witness :
    normalizeWidthValue "0.25" = "25%" ∧
    normalizeWidthValue "2.5" = "2.5px" ∧
    normalizeWidthValue "1.2.3" = "1.2.3" := by
  refine ⟨?_, ?_, ?_⟩
  · have h := claim_C4.2.2.1 "0.25" (mkRat 1 4) (by decide)
      (by with_unfolding_all rfl) (by with_unfolding_all decide)
    rw [h]
    with_unfolding_all rfl
  · have h := claim_C4.2.2.2.1 "2.5" (mkRat 5 2) (by decide)
      (by with_unfolding_all rfl) (by with_unfolding_all decide)
    rw [h]
    with_unfolding_all rfl
  · exact claim_C4.2.1 "1.2.3" (by decide) (by decide)

section RewriterLemmas

variable (toHastF : Bool → MNode → HastNode) (toHtmlF : Bool → HastNode → String)
variable (allow : Bool)

theorem transformList_eq_map (cs : List MNode) :
    transformList toHastF toHtmlF allow cs =
      cs.map (transformChild toHastF toHtmlF allow) := by
  induction cs with
  | nil => simp [transformList]
  | cons c cs ih => simp [transformList, ih]

theorem transformChild_grid (c : MNode) (h : isGridTable c = true) :
    transformChild toHastF toHtmlF allow c =
      gridReplacement toHastF toHtmlF allow c := by
  cases c with
  | mk t d w ic ch v =>
    cases ch with
    | none =>
      simp only [transformChild]
      rw [if_pos h]
    | some cs =>
      simp only [transformChild]
      rw [if_pos h]

theorem transformChild_parent (c : MNode) (cs : List MNode)
    (h1 : isGridTable c = false) (h2 : c.children = some cs) :
    transformChild toHastF toHtmlF allow c =
      MNode.mk c.ntype c.dtype c.colWidths c.invalidChildren
        (some (transformList toHastF toHtmlF allow cs)) c.value := by
  cases c with
  | mk t d w ic ch v =>
    have h2' : ch = some cs := h2
    subst h2'
    simp only [transformChild]
    rw [if_neg (by simp [h1])]
    rfl

theorem transformChild_leaf (c : MNode) (h1 : isGridTable c = false)
    (h2 : c.children = none) :
    transformChild toHastF toHtmlF allow c = c := by
  cases c with
  | mk t d w ic ch v =>
    have h2' : ch = none := h2
    subst h2'
    simp only [transformChild]
    rw [if_neg (by simp [h1])]

end RewriterLemmas

mutual

theorem transformChild_eq_self (toHastF : Bool → MNode → HastNode)
    (toHtmlF : Bool → HastNode → String) (allow : Bool) :
    ∀ (n : MNode), gridFreeNode n = true →
      transformChild toHastF toHtmlF allow n = n
  | .mk t d w ic ch v, h => by
    cases ch with
    | none =>
      simp only [gridFreeNode, Bool.and_eq_true, Bool.not_eq_eq_eq_not,
        Bool.not_true] at h
      simp only [transformChild]
      rw [if_neg (by simp [h.1])]
    | some cs =>
      simp only [gridFreeNode, Bool.and_eq_true, Bool.not_eq_eq_eq_not,
        Bool.not_true] at h
      simp only [transformChild]
      rw [if_neg (by simp [h.1]),
        transformList_eq_self toHastF toHtmlF allow cs h.2]

theorem transformList_eq_self (toHastF : Bool → MNode → HastNode)
    (toHtmlF : Bool → HastNode → String) (allow : Bool) :
    ∀ (l : List MNode), gridFreeList l = true →
      transformList toHastF toHtmlF allow l = l
  | [], _ => by simp only [transformList]
  | c :: cs, h => by
    simp only [gridFreeList, Bool.and_eq_true] at h
    simp only [transformList]
    rw [transformChild_eq_self toHastF toHtmlF allow c h.1,
      transformList_eq_self toHastF toHtmlF allow cs h.2]

end

/-- Claim C2: `transformGridToHtml` visits containers depth-first,
converts every direct grid-table child in place into a single
`html`-kind node at the same index (also inside cells of non-grid
containers, via the recursion equation and the nested-grid conjunct),
preserves child-list lengths, and leaves a tree with no grid tables
entirely unchanged. -/
theorem claim_C2 :
    (∀ (toHastF : Bool → MNode → HastNode) (toHtmlF : Bool → HastNode → String)
      (allow : Bool) (root : MNode) (cs : List MNode),
      root.children = some cs → gridFreeList cs = true →
      transformGridToHtml toHastF toHtmlF allow root = root) ∧
    (∀ (toHastF : Bool → MNode → HastNode) (toHtmlF : Bool → HastNode → String)
      (allow : Bool) (cs : List MNode),
      (transformList toHastF toHtmlF allow cs).length = cs.length) ∧
    (∀ (toHastF : Bool → MNode → HastNode) (toHtmlF : Bool → HastNode → String)
      (allow : Bool) (cs : List MNode) (i : Nat) (c : MNode),
      cs[i]? = some c → isGridTable c = true →
      (transformList toHastF toHtmlF allow cs)[i]? =
        some (gridReplacement toHastF toHtmlF allow c)) ∧
    (∀ (toHastF : Bool → MNode → HastNode) (toHtmlF : Bool → HastNode → String)
      (allow : Bool) (cs : List MNode) (i : Nat) (c : MNode),
      cs[i]? = some c →
      (transformList toHastF toHtmlF allow cs)[i]? =
        some (transformChild toHastF toHtmlF allow c)) ∧
    (∀ (toHastF : Bool → MNode → HastNode) (toHtmlF : Bool → HastNode → String)
      (allow : Bool) (c : MNode) (cs2 : List MNode),
      isGridTable c = false → c.children = some cs2 →
      transformChild toHastF toHtmlF allow c =
        MNode.mk c.ntype c.dtype c.colWidths c.invalidChildren
          (some (transformList toHastF toHtmlF allow cs2)) c.value) ∧
    (∀ (toHastF : Bool → MNode → HastNode) (toHtmlF : Bool → HastNode → String)
      (allow : Bool) (root : MNode) (cs : List MNode),
      root.children = some cs →
      transformGridToHtml toHastF toHtmlF allow root =
        MNode.mk root.ntype root.dtype root.colWidths root.invalidChildren
          (some (transformList toHastF toHtmlF allow cs)) root.value) ∧
    (∀ (toHastF : Bool → MNode → HastNode) (toHtmlF : Bool → HastNode → String)
      (allow : Bool) (c : MNode), ∃ s, gridReplacement toHastF toHtmlF allow c =
        MNode.mk "html" none none none none (some s)) ∧
    (∀ (toHastF : Bool → MNode → HastNode) (toHtmlF : Bool → HastNode → String)
      (allow : Bool) (c : MNode) (cs2 : List MNode) (j : Nat) (g : MNode),
      isGridTable c = false → c.children = some cs2 → cs2[j]? = some g →
      isGridTable g = true →
      (transformChild toHastF toHtmlF allow c).children =
        some (transformList toHastF toHtmlF allow cs2) ∧
      (transformList toHastF toHtmlF allow cs2)[j]? =
        some (gridReplacement toHastF toHtmlF allow g)) := by
  refine ⟨?_, ?_, ?_, ?_, ?_, ?_, ?_, ?_⟩
  · intro F G a root cs hch hfree
    cases root with
    | mk t d w ic ch v =>
      have hch' : ch = some cs := hch
      subst hch'
      rw [transformGridToHtml, transformList_eq_self F G a cs hfree]
  · intro F G a cs
    rw [transformList_eq_map]
    exact cs.length_map _
  · intro F G a cs i c hc hg
    rw [transformList_eq_map, List.getElem?_map, hc]
    simp [transformChild_grid F G a c hg]
  · intro F G a cs i c hc
    rw [transformList_eq_map, List.getElem?_map, hc]
    rfl
  · intro F G a c cs2 h1 h2
    exact transformChild_parent F G a c cs2 h1 h2
  · intro F G a root cs hch
    cases root with
    | mk t d w ic ch v =>
      have hch' : ch = some cs := hch
      subst hch'
      simp only [transformGridToHtml]
      rfl
  · intro F G a c
    exact ⟨_, rfl⟩
  · intro F G a c cs2 j g h1 h2 h3 h4
    constructor
    · rw [transformChild_parent F G a c cs2 h1 h2]
      rfl
    · rw [transformList_eq_map, List.getElem?_map, h3]
      simp [transformChild_grid F G a g h4]

mutual

theorem injectNode_of_find_none (cg : HastNode) :
    ∀ (n : HastNode), findTableElement n = none → injectNode cg n = (n, false)
  | .mk t tag props ch, h => by
    cases ch with
    | none =>
      simp only [findTableElement] at h
      by_cases hc : (t == "element" && tag == some "table") = true
      · rw [if_pos hc] at h
        exact absurd h (by simp)
      · simp only [injectNode]
        rw [if_neg hc]
    | some cs =>
      simp only [findTableElement] at h
      by_cases hc : (t == "element" && tag == some "table") = true
      · rw [if_pos hc] at h
        exact absurd h (by simp)
      · rw [if_neg hc] at h
        simp only [injectNode]
        rw [if_neg hc, injectList_of_find_none cg cs h]

theorem injectList_of_find_none (cg : HastNode) :
    ∀ (l : List HastNode), findTableInList l = none → injectList cg l = (l, false)
  | [], _ => by simp [injectList]
  | c :: cs, h => by
    simp only [findTableInList] at h
    cases hf : findTableElement c with
    | some f =>
      rw [hf] at h
      exact absurd h (by simp)
    | none =>
      rw [hf] at h
      dsimp only at h
      simp only [injectList]
      rw [injectNode_of_find_none cg c hf, injectList_of_find_none cg cs h]

end

mutual

theorem injectNode_of_find_some (cg : HastNode) :
    ∀ (n t : HastNode), findTableElement n = some t →
      ∃ n', injectNode cg n = (n', true) ∧
        findTableElement n' = some (prependTable cg t)
  | .mk tt tag props ch, t, h => by
    by_cases hc : (tt == "element" && tag == some "table") = true
    · cases ch with
      | none =>
        simp only [findTableElement] at h
        rw [if_pos hc] at h
        have ht : HastNode.mk tt tag props none = t := Option.some.inj h
        refine ⟨HastNode.mk tt tag props (some (cg :: (none : Option (List HastNode)).getD [])), ?_, ?_⟩
        · simp only [injectNode]
          rw [if_pos hc]
        · simp only [findTableElement]
          rw [if_pos hc, ← ht]
          rfl
      | some cs =>
        simp only [findTableElement] at h
        rw [if_pos hc] at h
        have ht : HastNode.mk tt tag props (some cs) = t := Option.some.inj h
        refine ⟨HastNode.mk tt tag props (some (cg :: (some cs : Option (List HastNode)).getD [])), ?_, ?_⟩
        · simp only [injectNode]
          rw [if_pos hc]
        · simp only [findTableElement]
          rw [if_pos hc, ← ht]
          rfl
    · cases ch with
      | none =>
        simp only [findTableElement] at h
        rw [if_neg hc] at h
        exact absurd h (by simp)
      | some cs =>
        simp only [findTableElement] at h
        rw [if_neg hc] at h
        obtain ⟨cs', hinj, hfind⟩ := injectList_of_find_some cg cs t h
        refine ⟨HastNode.mk tt tag props (some cs'), ?_, ?_⟩
        · simp only [injectNode]
          rw [if_neg hc, hinj]
        · simp only [findTableElement]
          rw [if_neg hc]
          exact hfind

theorem injectList_of_find_some (cg : HastNode) :
    ∀ (l : List HastNode) (t : HastNode), findTableInList l = some t →
      ∃ l', injectList cg l = (l', true) ∧
        findTableInList l' = some (prependTable cg t)
  | c :: cs, t, h => by
    simp only [findTableInList] at h
    cases hf : findTableElement c with
    | some f =>
      rw [hf] at h
      dsimp only at h
      have hft : f = t := Option.some.inj h
      subst hft
      obtain ⟨c', hinj, hfind⟩ := injectNode_of_find_some cg c f hf
      refine ⟨c' :: cs, ?_, ?_⟩
      · simp only [injectList]
        rw [hinj]
      · simp only [findTableInList]
        rw [hfind]
    | none =>
      rw [hf] at h
      dsimp only at h
      obtain ⟨cs', hinj, hfind⟩ := injectList_of_find_some cg cs t h
      refine ⟨c :: cs', ?_, ?_⟩
      · simp only [injectList]
        rw [injectNode_of_find_none cg c hf, hinj]
      · simp only [findTableInList]
        rw [hf]
        dsimp only
        exact hfind

end

/-- Claim C6: when widths were extracted and the hast tree contains a
table element, the spliced value serializes the colgroup-injected hast;
the injected colgroup becomes the new first child of the found table
element with the previous children kept, shifted right; the colgroup
holds one `col` per normalized width, styled `width: <value>`, in
order. -/
theorem claim_C6 :
    (∀ (F : Bool → MNode → HastNode) (G : Bool → HastNode → String) (a : Bool)
      (g : MNode) (ws : List String) (t : HastNode),
      extractColumnWidths g = some ws →
      findTableElement (F a g) = some t →
      gridReplacement F G a g =
        MNode.mk "html" none none none none
          (some (G a (injectNode (mkColgroup ws) (F a g)).1)) ∧
      (injectNode (mkColgroup ws) (F a g)).2 = true ∧
      findTableElement (injectNode (mkColgroup ws) (F a g)).1 =
        some (prependTable (mkColgroup ws) t)) ∧
    (∀ ws : List String,
      (mkColgroup ws).children = some (ws.map mkCol) ∧
      (mkColgroup ws).tagName = some "colgroup" ∧
      ∀ w : String, mkCol w =
        HastNode.mk "element" (some "col") [("style", "width: " ++ w)]
          (some [])) := by
  constructor
  · intro F G a g ws t hw ht
    obtain ⟨n', hinj, hfind⟩ := injectNode_of_find_some (mkColgroup ws) (F a g) t ht
    refine ⟨?_, ?_, ?_⟩
    · simp only [gridReplacement]
      rw [ht, hw]
    · rw [hinj]
    · rw [hinj]
      exact hfind
  · intro ws
    exact ⟨rfl, rfl, fun w => rfl⟩

/-- Concrete instantiation of claim C6: a grid table with two columns of
width `0.5` produces a colgroup-injected table whose first child is the
colgroup with two `col` elements styled `width: 50%`. -/
theorem claim_C6_witness :
    gridReplacement tableToHast dummyToHtml false
      (MNode.mk "table" (some "grid") (some [mkRat 1 2, mkRat 1 2]) none
        (some [MNode.mk "tableRow" none none none
          (some [MNode.mk "tableCell" none none none (some []) none,
                 MNode.mk "tableCell" none none none (some []) none]) none])
        none) =
      MNode.mk "html" none none none none
        (some (dummyToHtml false
          (injectNode (mkColgroup ["50%", "50%"])
            (HastNode.mk "element" (some "table") [] (some []))).1)) ∧
    findTableElement
      (injectNode (mkColgroup ["50%", "50%"])
        (HastNode.mk "element" (some "table") [] (some []))).1 =
      some (HastNode.mk "element" (some "table") []
        (some [mkColgroup ["50%", "50%"]])) := by
  have h := claim_C6.1 tableToHast dummyToHtml false
    (MNode.mk "table" (some "grid") (some [mkRat 1 2, mkRat 1 2]) none
      (some [MNode.mk "tableRow" none none none
        (some [MNode.mk "tableCell" none none none (some []) none,
               MNode.mk "tableCell" none none none (some []) none]) none])
      none)
    ["50%", "50%"] (HastNode.mk "element" (some "table") [] (some []))
    (by with_unfolding_all rfl) rfl
  exact ⟨h.1, h.2.2⟩

/-- Claim C7: width extraction yields `none` exactly when the metadata
lacks `colWidths`, the sequence is empty, the table has no rows, or the
width count differs from the first row's column count; a grid table is
converted to an `html` node in every case, with no colgroup injected
when extraction fails. -/
theorem claim_C7 :
    (∀ t : MNode, extractColumnWidths t = none ↔
      (t.colWidths = none ∨ t.colWidths = some [] ∨ mchildren t = [] ∨
        ∃ ws r0 rs, t.colWidths = some ws ∧ mchildren t = r0 :: rs ∧
          ws.length ≠ (mchildren r0).length)) ∧
    (∀ (F : Bool → MNode → HastNode) (G : Bool → HastNode → String) (a : Bool)
      (g : MNode), isGridTable g = true →
      ∃ s, transformChild F G a g =
        MNode.mk "html" none none none none (some s)) ∧
    (∀ (F : Bool → MNode → HastNode) (G : Bool → HastNode → String) (a : Bool)
      (g : MNode), extractColumnWidths g = none →
      gridReplacement F G a g =
        MNode.mk "html" none none none none (some (G a (F a g)))) := by
  refine ⟨?_, ?_, ?_⟩
  · intro t
    constructor
    · intro hnone
      cases hw : t.colWidths with
      | none => exact Or.inl rfl
      | some ws =>
        by_cases hl : ws.length = 0
        · have hws : ws = [] := List.length_eq_zero.mp hl
          subst hws
          exact Or.inr (Or.inl rfl)
        · cases hm : mchildren t with
          | nil => exact Or.inr (Or.inr (Or.inl rfl))
          | cons r0 rs =>
            by_cases hne : ws.length ≠ (mchildren r0).length
            · exact Or.inr (Or.inr (Or.inr ⟨ws, r0, rs, rfl, rfl, hne⟩))
            · have hsome : extractColumnWidths t =
                  some (ws.map fun w => normalizeWidthValue (jsNumberToString w)) := by
                simp only [extractColumnWidths]
                rw [hw]
                dsimp only
                rw [if_neg hl, hm]
                dsimp only
                rw [if_neg hne]
              rw [hsome] at hnone
              exact absurd hnone (by simp)
    · intro hcases
      rcases hcases with h1 | h2 | h3 | ⟨ws, r0, rs, hws, hm, hne⟩
      · simp [extractColumnWidths, h1]
      · simp [extractColumnWidths, h2]
      · cases hw : t.colWidths with
        | none => simp [extractColumnWidths, hw]
        | some ws =>
          by_cases hl : ws.length = 0
          · simp [extractColumnWidths, hw, hl]
          · simp [extractColumnWidths, hw, hl, h3]
      · by_cases hl : ws.length = 0
        · simp [extractColumnWidths, hws, hl]
        · simp [extractColumnWidths, hws, hl, hm, hne]
  · intro F G a g hg
    refine ⟨_, transformChild_grid F G a g hg⟩
  · intro F G a g hg
    simp only [gridReplacement]
    rw [hg]
    cases hf : findTableElement (F a g) <;> rfl

/-- Concrete instantiation of claim C7: three declared widths over a
two-column grid table give no extracted widths, yet the table is still
replaced by an `html` node with no colgroup injected. -/
theorem claim_C7_witness :
    extractColumnWidths
      (MNode.mk "table" (some "grid") (some [mkRat 1 4, mkRat 1 4, mkRat 1 2])
        none
        (some [MNode.mk "tableRow" none none none
          (some [MNode.mk "tableCell" none none none (some []) none,
                 MNode.mk "tableCell" none none none (some []) none]) none])
        none) = none ∧
    gridReplacement dummyToHast dummyToHtml false
      (MNode.mk "table" (some "grid") (some [mkRat 1 4, mkRat 1 4, mkRat 1 2])
        none
        (some [MNode.mk "tableRow" none none none
          (some [MNode.mk "tableCell" none none none (some []) none,
                 MNode.mk "tableCell" none none none (some []) none]) none])
        none) =
      MNode.mk "html" none none none none
        (some (dummyToHtml false (dummyToHast false
          (MNode.mk "table" (some "grid")
            (some [mkRat 1 4, mkRat 1 4, mkRat 1 2]) none
            (some [MNode.mk "tableRow" none none none
              (some [MNode.mk "tableCell" none none none (some []) none,
                     MNode.mk "tableCell" none none none (some []) none]) none])
            none)))) := by
  have hn := (claim_C7.1
    (MNode.mk "table" (some "grid") (some [mkRat 1 4, mkRat 1 4, mkRat 1 2])
      none
      (some [MNode.mk "tableRow" none none none
        (some [MNode.mk "tableCell" none none none (some []) none,
               MNode.mk "tableCell" none none none (some []) none]) none])
      none)).mpr
    (Or.inr (Or.inr (Or.inr ⟨[mkRat 1 4, mkRat 1 4, mkRat 1 2],
      MNode.mk "tableRow" none none none
        (some [MNode.mk "tableCell" none none none (some []) none,
               MNode.mk "tableCell" none none none (some []) none]) none,
      [], rfl, rfl, by decide⟩)))
  exact ⟨hn, claim_C7.2.2 dummyToHast dummyToHtml false _ hn⟩

/-- Claim C10: a grid-table child is converted whole: its replacement is
`gridReplacement` applied to the node itself (with all its descendants
untransformed), a childless `html` leaf — so a nested grid table is
never separately visited or replaced, ending up only inside the outer
table's serialized HTML string. -/
theorem claim_C10 :
    ∀ (F : Bool → MNode → HastNode) (G : Bool → HastNode → String) (a : Bool)
      (g : MNode), isGridTable g = true →
      transformChild F G a g = gridReplacement F G a g ∧
      (gridReplacement F G a g).ntype = "html" ∧
      (gridReplacement F G a g).children = none ∧
      (gridReplacement F G a g).value = some (G a
        (match findTableElement (F a g), extractColumnWidths g with
          | some _, some widths => (injectNode (mkColgroup widths) (F a g)).1
          | _, _ => F a g)) := by
  intro F G a g hg
  exact ⟨transformChild_grid F G a g hg, rfl, rfl, rfl⟩

/-- Concrete instantiation of claim C10: a grid table holding another
grid table inside its cell is replaced by a single childless `html`
leaf; the inner grid table is not separately converted. -/
theorem claim_C10_witness :
    transformChild dummyToHast dummyToHtml false
      (MNode.mk "table" (some "grid") none none
        (some [MNode.mk "tableRow" none none none
          (some [MNode.mk "tableCell" none none none
            (some [MNode.mk "table" (some "grid") none none (some []) none])
            none]) none])
        none) =
      MNode.mk "html" none none none none (some "<table></table>") := by
  have h := claim_C10 dummyToHast dummyToHtml false
    (MNode.mk "table" (some "grid") none none
      (some [MNode.mk "tableRow" none none none
        (some [MNode.mk "tableCell" none none none
          (some [MNode.mk "table" (some "grid") none none (some []) none])
          none]) none])
      none) rfl
  rw [h.1]
  rfl

/-- Concrete instantiation of claim C2: a root with no grid tables is
returned entirely unchanged. -/
theorem claim_C2_witness :
    transformGridToHtml dummyToHast dummyToHtml false
      (MNode.mk "root" none none none
        (some [MNode.mk "paragraph" none none none (some []) none,
               MNode.mk "table" none none none
                 (some [MNode.mk "tableRow" none none none (some []) none])
                 none]) none) =
      MNode.mk "root" none none none
        (some [MNode.mk "paragraph" none none none (some []) none,
               MNode.mk "table" none none none
                 (some [MNode.mk "tableRow" none none none (some []) none])
                 none]) none :=
  claim_C2.1 dummyToHast dummyToHtml false _ _ rfl rfl

mutual

theorem beqNode_iff : ∀ a b : MNode, beqNode a b = true ↔ a = b
  | .mk t1 d1 w1 ic1 c1 v1, .mk t2 d2 w2 ic2 c2 v2 => by
    simp only [beqNode, Bool.and_eq_true, decide_eq_true_eq]
    rw [beqOptList_iff ic1 ic2, beqOptList_iff c1 c2]
    constructor
    · rintro ⟨⟨⟨⟨⟨h1, h2⟩, h3⟩, h4⟩, h5⟩, h6⟩
      subst h1; subst h2; subst h3; subst h4; subst h5; subst h6
      rfl
    · intro h
      injection h with h1 h2 h3 h4 h5 h6
      exact ⟨⟨⟨⟨⟨h1, h2⟩, h3⟩, h4⟩, h5⟩, h6⟩

theorem beqOptList_iff : ∀ a b : Option (List MNode), beqOptList a b = true ↔ a = b
  | none, none => by simp [beqOptList]
  | some l1, some l2 => by
    simp only [beqOptList]
    rw [beqList_iff l1 l2]
    simp
  | none, some l2 => by simp [beqOptList]
  | some l1, none => by simp [beqOptList]

theorem beqList_iff : ∀ a b : List MNode, beqList a b = true ↔ a = b
  | [], [] => by simp [beqList]
  | a :: l1, b :: l2 => by
    simp only [beqList, Bool.and_eq_true]
    rw [beqNode_iff a b, beqList_iff l1 l2]
    simp
  | [], b :: l2 => by simp [beqList]
  | a :: l1, [] => by simp [beqList]

end

theorem findIdentityAux_spec (inner : MNode) :
    ∀ (cs : List MNode) (s j : Nat), findIdentityAux inner cs s = some j →
      ∃ k, k < cs.length ∧ j = s + k ∧ cs[k]? = some inner := by
  intro cs
  induction cs with
  | nil => intro s j h; exact absurd h (by simp [findIdentityAux])
  | cons c cs ih =>
    intro s j h
    rw [findIdentityAux] at h
    by_cases hb : beqNode c inner = true
    · rw [if_pos hb] at h
      have hj : s = j := Option.some.inj h
      have hc : c = inner := (beqNode_iff c inner).mp hb
      exact ⟨0, by simp, by omega, by simp [hc]⟩
    · rw [if_neg hb] at h
      obtain ⟨k, hk1, hk2, hk3⟩ := ih (s + 1) j h
      exact ⟨k + 1, by simpa using hk1, by omega, by simpa using hk3⟩

theorem findIdentity_spec (cs : List MNode) (inner : MNode) (i : Nat)
    (h : findIdentity cs inner = some i) :
    i < cs.length ∧ cs[i]? = some inner := by
  obtain ⟨k, hk1, hk2, hk3⟩ := findIdentityAux_spec inner cs 0 i h
  have : i = k := by omega
  subst this
  exact ⟨hk1, hk3⟩

/-- Claim C3: for every invalid-table record, a found `inner` (located
by identity, left to right) is replaced in place by exactly one `html`
node holding the serialized derived copy of `inner`, in which each cell
renders its `invalidChildren` side-channel data when present and its
normal children otherwise; a record whose `inner` is not found, or whose
parent is missing, leaves the children unmodified and is skipped without
error. -/
theorem claim_C3 :
    (∀ (F : Bool → MNode → HastNode) (G : Bool → HastNode → String) (a : Bool)
      (cs : List MNode) (inner : MNode) (i : Nat),
      findIdentity cs inner = some i →
      transformInvalidTable F G a (some cs) inner =
        some (cs.set i (invalidReplacement F G a inner)) ∧
      i < cs.length ∧ cs[i]? = some inner) ∧
    (∀ (F : Bool → MNode → HastNode) (G : Bool → HastNode → String) (a : Bool)
      (cs : List MNode) (inner : MNode),
      findIdentity cs inner = none →
      transformInvalidTable F G a (some cs) inner = some cs) ∧
    (∀ (F : Bool → MNode → HastNode) (G : Bool → HastNode → String) (a : Bool)
      (inner : MNode), transformInvalidTable F G a none inner = none) ∧
    (∀ (F : Bool → MNode → HastNode) (G : Bool → HastNode → String) (a : Bool)
      (inner : MNode), invalidReplacement F G a inner =
        MNode.mk "html" none none none none
          (some (G a (F a (derivedCopy inner))))) ∧
    (∀ cell : MNode,
      (cell.invalidChildren = none →
        (derivedCell cell).children = cell.children) ∧
      (∀ ic, cell.invalidChildren = some ic →
        (derivedCell cell).children = some ic)) ∧
    (∀ (F : Bool → MNode → HastNode) (G : Bool → HastNode → String) (a : Bool)
      (its : List InvalidTable) (k : Nat),
      (transformInvalidTablesToHtml F G a its)[k]? =
        (its[k]?).map fun it =>
          transformInvalidTable F G a (it.parent.bind MNode.children)
            it.inner) := by
  refine ⟨?_, ?_, ?_, ?_, ?_, ?_⟩
  · intro F G a cs inner i h
    obtain ⟨h1, h2⟩ := findIdentity_spec cs inner i h
    refine ⟨?_, h1, h2⟩
    simp only [transformInvalidTable]
    rw [h]
  · intro F G a cs inner h
    simp only [transformInvalidTable]
    rw [h]
  · intro F G a inner
    rfl
  · intro F G a inner
    rfl
  · intro cell
    constructor
    · intro h
      simp only [derivedCell, MNode.children]
      rw [h]
    · intro ic h
      simp only [derivedCell, MNode.children]
      rw [h]
  · intro F G a its k
    simp only [transformInvalidTablesToHtml]
    rw [List.getElem?_map]

/-- Concrete instantiation of claim C3: a record whose `inner` sits at
index `1` of the parent's children is replaced there; a record whose
`inner` is absent leaves the children unmodified. -/
theorem claim_C3_witness :
    transformInvalidTable dummyToHast dummyToHtml false
      (some [MNode.mk "paragraph" none none none (some []) none,
             MNode.mk "table" none none none (some []) none])
      (MNode.mk "table" none none none (some []) none) =
      some [MNode.mk "paragraph" none none none (some []) none,
            invalidReplacement dummyToHast dummyToHtml false
              (MNode.mk "table" none none none (some []) none)] ∧
    transformInvalidTable dummyToHast dummyToHtml false
      (some [MNode.mk "paragraph" none none none (some []) none])
      (MNode.mk "table" none none none (some []) none) =
      some [MNode.mk "paragraph" none none none (some []) none] :=
  ⟨(claim_C3.1 dummyToHast dummyToHtml false
      [MNode.mk "paragraph" none none none (some []) none,
       MNode.mk "table" none none none (some []) none]
      (MNode.mk "table" none none none (some []) none) 1 rfl).1,
    claim_C3.2.1 dummyToHast dummyToHtml false
      [MNode.mk "paragraph" none none none (some []) none]
      (MNode.mk "table" none none none (some []) none) rfl⟩

/-- Claim C9: the rewrite never alters the record's `inner` node — the
serialized tree is a derived copy whose top-level fields and row/cell
structure mirror `inner` — and the only change to the tree is the
one-for-one replacement at the found index: every other position of the
parent's child sequence, and its length, are unchanged. -/
theorem claim_C9 :
    ∀ (F : Bool → MNode → HastNode) (G : Bool → HastNode → String) (a : Bool)
      (cs : List MNode) (inner : MNode) (i : Nat),
      findIdentity cs inner = some i →
      ∃ cs2, transformInvalidTable F G a (some cs) inner = some cs2 ∧
        cs2.length = cs.length ∧
        (∀ j, j ≠ i → cs2[j]? = cs[j]?) ∧
        cs2[i]? = some (invalidReplacement F G a inner) ∧
        (derivedCopy inner).ntype = inner.ntype ∧
        (derivedCopy inner).dtype = inner.dtype ∧
        (derivedCopy inner).colWidths = inner.colWidths ∧
        (derivedCopy inner).invalidChildren = inner.invalidChildren ∧
        (derivedCopy inner).value = inner.value ∧
        (mchildren (derivedCopy inner)).length = (mchildren inner).length ∧
        (∀ (j : Nat) (r : MNode), (mchildren inner)[j]? = some r →
          (mchildren (derivedCopy inner))[j]? = some (derivedRow r) ∧
          (mchildren (derivedRow r)).length = (mchildren r).length) := by
  intro F G a cs inner i h
  obtain ⟨h1, _⟩ := findIdentity_spec cs inner i h
  refine ⟨cs.set i (invalidReplacement F G a inner), ?_, ?_, ?_, ?_, rfl, rfl,
    rfl, rfl, rfl, ?_, ?_⟩
  · simp only [transformInvalidTable]
    rw [h]
  · exact cs.length_set ..
  · intro j hj
    exact List.getElem?_set_ne (fun hc => hj hc.symm)
  · exact List.getElem?_set_self h1
  · rw [show mchildren (derivedCopy inner) = (mchildren inner).map derivedRow
      from rfl, List.length_map]
  · intro j r hr
    constructor
    · rw [show mchildren (derivedCopy inner) = (mchildren inner).map derivedRow
        from rfl, List.getElem?_map, hr]
      rfl
    · rw [show mchildren (derivedRow r) = (mchildren r).map derivedCell
        from rfl, List.length_map]

/-- Concrete instantiation of claim C9: replacing the found child keeps
the sibling and the length; the derived copy of the inner table keeps
its type. -/
theorem claim_C9_witness :
    ∃ cs2, transformInvalidTable dummyToHast dummyToHtml false
      (some [MNode.mk "paragraph" none none none (some []) none,
             MNode.mk "table" none none none (some []) none])
      (MNode.mk "table" none none none (some []) none) = some cs2 ∧
      cs2.length = 2 ∧
      cs2[0]? = some (MNode.mk "paragraph" none none none (some []) none) := by
  obtain ⟨cs2, ha, hb, hc, _⟩ := claim_C9 dummyToHast dummyToHtml false
    [MNode.mk "paragraph" none none none (some []) none,
     MNode.mk "table" none none none (some []) none]
    (MNode.mk "table" none none none (some []) none) 1 rfl
  exact ⟨cs2, ha, hb, hc 0 (by decide)⟩

end CDC

